import Mathlib

set_option maxHeartbeats 1000000

/- Verification development for the search-tree debugger module
   (pomdp_py/utils/debugging.py).  The tree data model, the statistics
   collector (TreeDebugger.tree_stats), the branch-art renderer
   (_NodePP._print_tree_helper), the child lookup (_NodePP.__getitem__),
   the layer extraction (TreeDebugger.layer), the node counting
   (TreeDebugger.num_nodes) and the preferred-action trace
   (print_preferred_actions) are embedded as executable Lean functions,
   and the behaviour stated by the design document is proved or refuted
   about them. -/

/-- Kind of a search-tree node: vnode models a decision (belief) node
(class VNode), qnode models an action node (class QNode). -/
inductive Kind where
  | vnode
  | qnode
deriving DecidableEq

mutual
/-- Modelled from the spec: the external tree node (pomdp_py TreeNode, built
by the planner outside this module) carries a visit count, a value and a
children mapping from edge labels to nodes (spec section 3).  Edge labels are
modelled by their string form; the mapping is an association list in
insertion order, with unique labels as in a Python dict.  Values are exact
rationals standing for the float field. -/
inductive PTree where
  | node (kind : Kind) (num_visits : Nat) (value : Rat) (children : Children)
/-- Children association list of a node, in mapping (insertion) order. -/
inductive Children where
  | nil
  | cons (label : String) (child : PTree) (rest : Children)
end

deriving instance DecidableEq for PTree

deriving instance DecidableEq for Except

def PTree.kind : PTree → Kind
  | .node k _ _ _ => k

def PTree.num_visits : PTree → Nat
  | .node _ nv _ _ => nv

def PTree.value : PTree → Rat
  | .node _ _ v _ => v

def PTree.children : PTree → Children
  | .node _ _ _ cs => cs

def Children.toList : Children → List (String × PTree)
  | .nil => []
  | .cons l c rest => (l, c) :: rest.toList

def Children.ofList : List (String × PTree) → Children
  | [] => .nil
  | (l, c) :: rest => .cons l c (Children.ofList rest)

mutual
/-- Number of nodes of a subtree (used as fuel for the preferred-action
trace, whose recursion descends into one child per step). -/
def sizeP : PTree → Nat
  | .node _ _ _ cs => 1 + sizeK cs
def sizeK : Children → Nat
  | .nil => 0
  | .cons _ c rest => sizeP c + sizeK rest
end

/-- Lexicographic comparison of char lists, the order Python uses on
strings (by code point). -/
def charListLe : List Char → List Char → Bool
  | [], _ => true
  | _ :: _, [] => false
  | a :: as, b :: bs => if a < b then true else if b < a then false else charListLe as bs

/-- Python string comparison, used by sorted with key=str. -/
def strLe (a b : String) : Bool := charListLe a.data b.data

/-- Insert one labelled child into a list sorted by label (stable: an
element is placed before the first strictly-or-equally later label, so
equal labels keep their relative order, as Python sorted is stable). -/
def insertPair (x : String × PTree) : List (String × PTree) → List (String × PTree)
  | [] => [x]
  | y :: ys => if strLe x.1 y.1 then x :: y :: ys else y :: insertPair x ys

/-- Insertion sort of a children list by the string form of the edge label:
the embedding of sorted_by_str. -/
def sortPairs : List (String × PTree) → List (String × PTree)
  | [] => []
  | x :: xs => insertPair x (sortPairs xs)

mutual
/-- Recursively sort every children list of the tree by edge label.  The
source sorts each children list on the fly at every visit
(sorted_by_str(root.children)); pre-sorting the whole tree once and then
iterating children in mapping order visits the same children in the same
order. -/
def sortTree : PTree → PTree
  | .node k nv v cs => .node k nv v (Children.ofList (sortPairs (sortKids cs)))
def sortKids : Children → List (String × PTree)
  | .nil => []
  | .cons l c rest => (l, sortTree c) :: sortKids rest
end

/-- The stats dictionary built by TreeDebugger.tree_stats; num_visits and
value are filled in from the root after the traversal. -/
structure StatsRec where
  total_vnodes : Nat
  total_qnodes : Nat
  total_vnodes_children : Nat
  total_qnodes_children : Nat
  max_vnodes_children : Nat
  max_qnodes_children : Nat
  max_depth : Int
  num_visits : Nat
  value : Rat
deriving DecidableEq

def initStats : StatsRec := ⟨0, 0, 0, 0, 0, 0, -1, 0, 0⟩

/-- The guard max_depth is not None and depth > max_depth of the stats and
print helpers. -/
def mxExceeded (mx : Option Nat) (depth : Nat) : Bool :=
  match mx with
  | some m => decide (m < depth)
  | none => false

/-- The per-node update of _tree_stats_helper: counts and children maxima
for the matching kind; at a vnode the max_depth field is assigned (not
folded with max) the current depth. -/
def statsVisit (s : StatsRec) (k : Kind) (nc : Nat) (depth : Nat) : StatsRec :=
  match k with
  | .vnode =>
      { s with total_vnodes := s.total_vnodes + 1,
               total_vnodes_children := s.total_vnodes_children + nc,
               max_vnodes_children := Nat.max s.max_vnodes_children nc,
               max_depth := (depth : Int) }
  | .qnode =>
      { s with total_qnodes := s.total_qnodes + 1,
               total_qnodes_children := s.total_qnodes_children + nc,
               max_qnodes_children := Nat.max s.max_qnodes_children nc }

mutual
/-- TreeDebugger._tree_stats_helper: pre-order traversal in mapping order;
every child is visited at depth + 1, whatever the kinds involved. -/
def statsHelper (root : PTree) (depth : Nat) (mx : Option Nat) (s : StatsRec) : StatsRec :=
  match root with
  | .node k _ _ cs =>
    if mxExceeded mx depth then s
    else statsKids cs (depth + 1) mx (statsVisit s k cs.toList.length depth)
def statsKids (cs : Children) (depth : Nat) (mx : Option Nat) (s : StatsRec) : StatsRec :=
  match cs with
  | .nil => s
  | .cons _ c rest => statsKids rest depth mx (statsHelper c depth mx s)
end

/-- TreeDebugger.tree_stats with the default max_depth=None, as the
debugger calls it. -/
def treeStats (root : PTree) : StatsRec :=
  let s := statsHelper root 0 none initStats
  { s with num_visits := root.num_visits, value := root.value }

mutual
/-- Raw-edge depths of the decision nodes of a subtree, in the pre-order,
mapping-order traversal of the stats helper: every parent-to-child step
adds one. -/
def rawVnodeDepths (t : PTree) (d : Nat) : List Nat :=
  match t with
  | .node k _ _ cs =>
      (match k with | .vnode => [d] | .qnode => []) ++ rawVnodeKids cs (d + 1)
def rawVnodeKids (cs : Children) (d : Nat) : List Nat :=
  match cs with
  | .nil => []
  | .cons _ c rest => rawVnodeDepths c d ++ rawVnodeKids rest d
end

/-- Last element of a list with a default, in fold form. -/
def lastD (l : List Nat) (dflt : Int) : Int :=
  match l with
  | [] => dflt
  | n :: rest => lastD rest (n : Int)

mutual
/-- Modelled from the spec: depths of the decision nodes of a subtree where
depth starts at 0 at the traversal root and increases by 1 only when moving
from an action node to a decision node (spec sections 4.2 and 4.3).  This is
the claim-side reading of the depth rule, used to compare with the stats
helper. -/
def adVnodeDepths (t : PTree) (d : Nat) : List Nat :=
  match t with
  | .node k _ _ cs =>
      (match k with | .vnode => [d] | .qnode => []) ++ adVnodeKids k cs d
def adVnodeKids (pk : Kind) (cs : Children) (d : Nat) : List Nat :=
  match cs with
  | .nil => []
  | .cons _ c rest =>
      adVnodeDepths c (if pk = Kind.qnode ∧ c.kind = Kind.vnode then d + 1 else d) ++
        adVnodeKids pk rest d
end

/-- Modelled from the spec: the maximum, over all decision nodes of the
subtree, of the action-to-decision depth, with -1 when there is none. -/
def specMaxDecisionDepth (t : PTree) : Int :=
  (adVnodeDepths t 0).foldl (fun m n => max m (n : Int)) (-1)

mutual
def countV : PTree → Nat
  | .node k _ _ cs => (match k with | .vnode => 1 | .qnode => 0) + countVK cs
def countVK : Children → Nat
  | .nil => 0
  | .cons _ c rest => countV c + countVK rest
end

mutual
def countQ : PTree → Nat
  | .node k _ _ cs => (match k with | .vnode => 0 | .qnode => 1) + countQK cs
def countQK : Children → Nat
  | .nil => 0
  | .cons _ c rest => countQ c + countQK rest
end

mutual
def hasVNode : PTree → Bool
  | .node k _ _ cs => (k == Kind.vnode) || hasVKids cs
def hasVKids : Children → Bool
  | .nil => false
  | .cons _ c rest => hasVNode c || hasVKids rest
end

/-- Sibling position of a child among its enumerated siblings
(first, middle or last), as classified by _print_tree_helper. -/
inductive BPos where
  | first
  | middle
  | last
deriving DecidableEq

/-- Position of the child at index i among n siblings; the source checks
last (i = n - 1) before first (i = 0), so a single child is last. -/
def posOf (i n : Nat) : BPos :=
  if i = n - 1 then .last else if i = 0 then .first else .middle

/-- One visit of the print traversal: the arguments of the recursive
_print_tree_helper call that emits a line, together with the list of edge
labels followed from the render root (implicit in the recursion). -/
structure Visit where
  node : PTree
  parentEdge : Option String
  positions : List (Option BPos)
  depth : Nat
  path : List String
deriving DecidableEq

/-- The child filter of the renderer: print_type == "complete" or the
child has num_visits > 1. -/
def keepB (mode : String) (c : PTree) : Bool :=
  (mode == "complete") || decide (1 < c.num_visits)

def keepP (mode : String) (c : PTree) : Prop := keepB mode c = true

mutual
/-- The traversal of _NodePP._print_tree_helper over a tree whose children
lists are already sorted (see sortTree): returns the visits in emission
order.  branch positions, depth bookkeeping and the per-child filter follow
the source; the depth bound prunes a node whose depth exceeds it. -/
def ptHelper (root : PTree) (pe : Option String) (bps : List (Option BPos)) (depth : Nat)
    (mx : Option Nat) (mode : String) (path : List String) : List Visit :=
  match root with
  | .node _ _ _ cs =>
    if mxExceeded mx depth then []
    else ⟨root, pe, bps, depth, path⟩ :: ptKids cs 0 cs.toList.length depth mx mode bps path
def ptKids (cs : Children) (i n depth : Nat) (mx : Option Nat) (mode : String)
    (bps : List (Option BPos)) (path : List String) : List Visit :=
  match cs with
  | .nil => []
  | .cons l c rest =>
    (if keepB mode c then
        ptHelper c (some l) (bps ++ [some (posOf i n)])
          (if c.kind == Kind.qnode then depth else depth + 1) mx mode (path ++ [l])
      else []) ++ ptKids rest (i + 1) n depth mx mode bps path
end

/-- print_tree rooted at a node: helper called with branch positions [None]
at depth 0; children are taken in sorted order via sortTree. -/
def printTrace (t : PTree) (mx : Option Nat) (mode : String) : List Visit :=
  ptHelper (sortTree t) none [none] 0 mx mode []

/-- Glyph of a non-final branch position (the loop over all positions
before the current root). -/
def midGlyph : Option BPos → String
  | none => ""
  | some .first => "│    "
  | some .middle => "│    "
  | some .last => "     "

/-- Glyph of the final branch position (the edge into the current root). -/
def edgeGlyph : Option BPos → String
  | none => ""
  | some .first => "├─── "
  | some .middle => "├─── "
  | some .last => "└─── "

/-- The branches string of _print_tree_helper: a glyph for every position
except the last, then the edge glyph of the last position. -/
def branchesOf : List (Option BPos) → String
  | [] => ""
  | [p] => edgeGlyph p
  | p :: q :: rest => midGlyph p ++ branchesOf (q :: rest)

def pad3 (n : Nat) : String :=
  if n < 10 then "00" ++ toString n else if n < 100 then "0" ++ toString n else toString n

/-- Fixed three-decimal rendering of a value, standing for the format
spec {:.3f}; binary floating point rounding artefacts are outside the
model, the value is treated as an exact rational and rounded half up. -/
def fmt3 (q : Rat) : String :=
  let sign := if q < 0 then "-" else ""
  let a : Rat := if q < 0 then -q else q
  let m : Nat := ((a.num * 2000 + (a.den : Int)) / (2 * (a.den : Int))).toNat
  sign ++ toString (m / 1000) ++ "." ++ pad3 (m % 1000)

/-- Class name printed by single_node_str: the node shown is a printing
proxy (_VNodePP or _QNodePP), its children in the indented listing are the
raw wrapped nodes (VNode or QNode). -/
def ppClassName (k : Kind) (proxy : Bool) : String :=
  match k, proxy with
  | .vnode, true => "_VNodePP"
  | .qnode, true => "_QNodePP"
  | .vnode, false => "VNode"
  | .qnode, false => "QNode"

/-- The one-line part of TreeDebugger.single_node_str: optional
parent-edge arrow, class name, visit count and value.  The colour helpers
(typ.green and friends) are modelled from the spec as identity: styling
must degrade to plain text with no behaviour change (spec section 6). -/
def baseStr (t : PTree) (pe : Option String) (proxy : Bool) : String :=
  (match pe with
   | some e => e ++ "⟶"
   | none => "") ++
  ppClassName t.kind proxy ++ "(n=" ++ toString t.num_visits ++ ", v=" ++ fmt3 t.value ++ ")"

/-- TreeDebugger.single_node_str: the one-line description, followed, when
include_children is set, by one indented line per child in sorted label
order. -/
def singleNodeStr (t : PTree) (pe : Option String) (includeChildren : Bool) : String :=
  let base := baseStr t pe true
  if includeChildren then
    base ++ "\n" ++
      String.intercalate "\n"
        (((sortPairs t.children.toList).enum).map
          (fun ip => "    " ++ "- [" ++ toString ip.1 ++ "] " ++ ip.2.1 ++ ": " ++
            baseStr ip.2.2 none false)) ++ "\n"
  else base

/-- Description part of an emitted line: the node string (children listing
suppressed, the flag having just been cleared) and, for a decision node,
the depth annotation. -/
def nodeTail (v : Visit) : String :=
  singleNodeStr v.node v.parentEdge false ++
    (if v.node.kind == Kind.vnode then "(depth=" ++ toString v.depth ++ ")" else "")

/-- The line printed for one visit: branch glyphs then the description. -/
def lineOf (v : Visit) : String := branchesOf v.positions ++ nodeTail v

def printTreeLines (t : PTree) (mx : Option Nat) (mode : String) : List String :=
  (printTrace t mx mode).map lineOf

/-- Depth increment on entering a child: 0 into an action node, 1 into a
decision node (the renderer, layer and preferred-path rule). -/
def childInc (c : PTree) : Nat :=
  match c.kind with
  | .qnode => 0
  | .vnode => 1

/-- Upper bound check against an optional depth bound. -/
def mxOK (mx : Option Nat) (e : Nat) : Prop :=
  match mx with
  | some m => e ≤ m
  | none => True

/-- Specification-side reachability: a labelled path from a root to a
node, every step moving to a child that satisfies keep, accumulating the
renderer depth (one per decision-node child entered). -/
inductive StepsKeep (keep : PTree → Prop) : PTree → List String → PTree → Nat → Prop where
  | here (u : PTree) : StepsKeep keep u [] u 0
  | step {u c n : PTree} {l : String} {p : List String} {e : Nat} :
      (l, c) ∈ u.children.toList → keep c → StepsKeep keep c p n e →
      StepsKeep keep u (l :: p) n (childInc c + e)

/-- Specification-side reachability recording, for every step, the sibling
position of the entered child among its enumerated siblings. -/
inductive StepsPos : PTree → List String → List BPos → Prop where
  | here (u : PTree) : StepsPos u [] []
  | step {u c : PTree} {l : String} {p : List String} {ps : List BPos} {j : Nat}
      (hj : j < u.children.toList.length)
      (hget : u.children.toList.get ⟨j, hj⟩ = (l, c))
      (hrec : StepsPos c p ps) :
      StepsPos u (l :: p) (posOf j u.children.toList.length :: ps)

mutual
/-- TreeDebugger._layer_helper over a pre-sorted tree: collect decision
nodes whose renderer depth is exactly the target; recursion stops at the
target depth. -/
def layerHelper (root : PTree) (cur tgt : Nat) : List PTree :=
  match root with
  | .node k _ _ cs =>
    if cur = tgt then (match k with | .vnode => [root] | .qnode => [])
    else layerKids cs cur tgt
def layerKids (cs : Children) (cur tgt : Nat) : List PTree :=
  match cs with
  | .nil => []
  | .cons _ c rest =>
    layerHelper c (if c.kind == Kind.qnode then cur else cur + 1) tgt ++ layerKids rest cur tgt
end

/-- TreeDebugger.layer: range check against the cached stats max_depth,
then the helper from depth 0. -/
def layer (t : PTree) (d : Int) : Except String (List PTree) :=
  if d < 0 ∨ (treeStats t).max_depth < d then
    .error ("Depth " ++ toString d ++ " is out of range (maximum: " ++
      toString (treeStats t).max_depth ++ ")")
  else .ok (layerHelper (sortTree t) 0 d.toNat)

/-- The debugger depth property: the max_depth field of the cached stats
of the current node (the cache is keyed by object identity and the stats
are pure, so the cached record equals treeStats of the current node). -/
def depthProp (t : PTree) : Int := (treeStats t).max_depth

/-- TreeDebugger.num_nodes: counts from the stats record, keyed by the
kind strings all, q and v; any other kind is an error. -/
def numNodes (t : PTree) (kind : String) : Except String Nat :=
  let stats := treeStats t
  if kind == "all" then .ok (stats.total_vnodes + stats.total_qnodes)
  else if kind == "q" then .ok stats.total_qnodes
  else if kind == "v" then .ok stats.total_vnodes
  else .error ("Invalid value for kind=" ++ kind)

/-- Lookup key of _NodePP.__getitem__: an integer index or a string.  Edge
labels are modelled by strings, so an exact-label match is a string key
(an integer key never equals an edge label in the model, matching the
hypothesis of the index-lookup claim). -/
inductive LookupKey where
  | ikey (i : Int)
  | skey (s : String)

/-- Failure modes of the lookup: the IndexError of list indexing, the
ValueError naming the offending key, and the ValueError that max() raises
on an empty sequence (no children to compare similarity against). -/
inductive LookupErr where
  | indexOutOfRange
  | invalidKey (key : String)
  | emptyMax
deriving DecidableEq

/-- Python list indexing semantics: indices in [0, len) count from the
front, indices in [-len, 0) count from the back, anything else raises. -/
def pyIndex {α : Type} (l : List α) (i : Int) : Option α :=
  if 0 ≤ i ∧ i < (l.length : Int) then l[i.toNat]?
  else if -(l.length : Int) ≤ i ∧ i < 0 then l[((l.length : Int) + i).toNat]?
  else none

/-- First child with the given label (dict lookup; labels are unique in a
dict, so the first match is the match). -/
def findPair : List (String × PTree) → String → Option PTree
  | [], _ => none
  | (l, c) :: rest, s => if l = s then some c else findPair rest s

/-- Python max(keys, key=similarity) over the children: keeps the first
element encountered whose score is not strictly exceeded later. -/
def argmaxGo (sim : String → String → Rat) (s : String) (best : String × PTree) :
    List (String × PTree) → String × PTree
  | [] => best
  | p :: rest => argmaxGo sim s (if sim best.1 s < sim p.1 s then p else best) rest

def SIMILAR_THRESH : Rat := mkRat 3 5

/-- The embedding of _NodePP.__getitem__.  The similarity function is the
external collaborator (spec section 6), passed in as a parameter. -/
def getItem (sim : String → String → Rat) (t : PTree) (key : LookupKey) :
    Except LookupErr (String × PTree) :=
  match key with
  | .skey s =>
    match findPair t.children.toList s with
    | some c => .ok (s, c)
    | none =>
      match t.children.toList with
      | [] => .error .emptyMax
      | p0 :: rest =>
        let chosen := argmaxGo sim s p0 rest
        if SIMILAR_THRESH ≤ sim chosen.1 s then .ok chosen
        else .error (.invalidKey s)
  | .ikey i =>
    match pyIndex (sortPairs t.children.toList) i with
    | some p => .ok p
    | none => .error .indexOutOfRange

/-- One update of the best-child scan of _print_preferred_actions_helper:
replace the best only on a strictly greater value. -/
def bestStep (best : String × PTree) (p : String × PTree) : String × PTree :=
  if best.2.value < p.2.value then p else best

def bestPairGo (best : String × PTree) : List (String × PTree) → String × PTree
  | [] => best
  | p :: rest => bestPairGo (bestStep best p) rest

/-- Best child of a children list in mapping order; the running best
starts at negative infinity, so the first child always becomes the first
best (values are finite floats). -/
def bestPairL : List (String × PTree) → Option (String × PTree)
  | [] => none
  | p :: rest => some (bestPairGo p rest)

/-- The equally-good collection: every other child whose value equals the
best value. -/
def equallyGoodLabels (cl : List (String × PTree)) (bl : String) (bv : Rat) : List String :=
  (cl.filter (fun q => !(q.1 == bl) && decide (q.2.value = bv))).map Prod.fst

/-- The guard max_depth is not None and depth >= max_depth of the
preferred-action helper. -/
def mxReached (mx : Option Nat) (depth : Nat) : Bool :=
  match mx with
  | some m => decide (m ≤ depth)
  | none => false

/-- print_preferred_actions with explicit fuel: each recursive call
descends into a child, so any fuel at least the subtree size gives the
full trace.  Returns the printed pairs (best edge, equally good edges);
a line is printed exactly when the best child is an action node. -/
def prefTraceF : Nat → PTree → Nat → Option Nat → List (String × List String)
  | 0, _, _, _ => []
  | fuel + 1, root, depth, mx =>
    if mxReached mx depth then []
    else
      match bestPairL root.children.toList with
      | none => []
      | some (bl, bc) =>
        let eg := if root.kind == Kind.vnode then
            equallyGoodLabels root.children.toList bl bc.value else []
        (if bc.kind == Kind.qnode then [(bl, eg)] else []) ++ prefTraceF fuel bc (depth + 1) mx

def printPreferredActions (t : PTree) (mx : Option Nat) : List (String × List String) :=
  prefTraceF (sizeP t) t 0 mx

/-- The printing proxy (_VNodePP or _QNodePP): wraps a node, remembers the
edge that led to it and carries the print_children display flag. -/
structure Proxy where
  node : PTree
  parentEdge : Option String
  printChildren : Bool
deriving DecidableEq

/-- Proxy construction (_node_pp): print_children starts True. -/
def mkProxy (t : PTree) (pe : Option String) : Proxy := ⟨t, pe, true⟩

/-- String form of a proxy: single_node_str with include_children given by
the print_children flag. -/
def proxyStr (p : Proxy) : String := singleNodeStr p.node p.parentEdge p.printChildren

/-- print_tree on a proxy, with the mutation of the flag made explicit by
state passing: the helper assigns print_children = False to the node it is
called on before emitting its line, and the starting proxy is the only
proxy that outlives the call (children are wrapped afresh).  When the
depth bound prunes the root visit the flag is left untouched. -/
def printTreeP (p : Proxy) (mx : Option Nat) (mode : String) : List String × Proxy :=
  if mxExceeded mx 0 then ([], p)
  else ((ptHelper (sortTree p.node) p.parentEdge [none] 0 mx mode []).map lineOf,
        ⟨p.node, p.parentEdge, false⟩)

/-- The debugger state: the root proxy and the current proxy. -/
structure DebuggerM where
  root : Proxy
  current : Proxy
deriving DecidableEq

/-- The debugger string form: str(self.current). -/
def debuggerStr (d : DebuggerM) : String := proxyStr d.current

/- Concrete trees used by the scenario parts of the claims and by the
counterexamples and witnesses. -/

def upChild : PTree := .node .qnode 5 1 .nil

def downChild : PTree := .node .qnode 1 2 .nil

/-- The scenario tree of spec section 8: a decision node with action
children up (5 visits, value 1.0) and down (1 visit, value 2.0). -/
def scenarioTree : PTree :=
  .node .vnode 6 0 (.cons ("up") upChild (.cons ("down") downChild .nil))

def c1v6 : PTree := .node .vnode 2 0 .nil
def c1q5 : PTree := .node .qnode 2 0 (.cons ("v") c1v6 .nil)
def c1v4 : PTree := .node .vnode 2 0 (.cons ("u") c1q5 .nil)
def c1q3 : PTree := .node .qnode 2 0 (.cons ("z") c1v4 .nil)
def c1v2 : PTree := .node .vnode 2 0 (.cons ("y") c1q3 .nil)
def c1qa : PTree := .node .qnode 2 0 (.cons ("x") c1v2 .nil)
def c1vb : PTree := .node .vnode 2 0 .nil
def c1qb : PTree := .node .qnode 2 0 (.cons ("p") c1vb .nil)

/-- An alternating tree with a deep first branch (decision nodes at raw
edge depths 0, 2, 4, 6) and a shallow second branch (one decision node at
raw edge depth 2). -/
def cexC1 : PTree :=
  .node .vnode 2 0 (.cons ("a") c1qa (.cons ("b") c1qb .nil))

def qLeaf : PTree := .node .qnode 3 0 .nil

def vLeaf : PTree := .node .vnode 4 0 .nil

/-- A constant similarity function, for concrete evaluations where the
integer branch (which ignores similarity) or a below-threshold score is
wanted. -/
def sim0 : String → String → Rat := fun _ _ => 0

/- Helper lemmas about the statistics traversal. -/

theorem lastD_append (xs ys : List Nat) (dflt : Int) :
    lastD (xs ++ ys) dflt = lastD ys (lastD xs dflt) := by
  induction xs generalizing dflt with
  | nil => rfl
  | cons x xs ih => simp [lastD, ih]

mutual
theorem statsHelper_md (t : PTree) (d : Nat) (s : StatsRec) :
    (statsHelper t d none s).max_depth = lastD (rawVnodeDepths t d) s.max_depth := by
  cases t with
  | node k nv v cs =>
    have hk := statsKids_md cs (d + 1) (statsVisit s k cs.toList.length d)
    cases k with
    | vnode =>
      simp only [statsHelper, mxExceeded, if_neg Bool.false_ne_true, Bool.false_eq_true,
        if_false] at hk ⊢
      rw [hk]
      simp [rawVnodeDepths, lastD_append, lastD, statsVisit]
    | qnode =>
      simp only [statsHelper, mxExceeded, Bool.false_eq_true, if_false] at hk ⊢
      rw [hk]
      simp [rawVnodeDepths, lastD_append, lastD, statsVisit]
theorem statsKids_md (cs : Children) (d : Nat) (s : StatsRec) :
    (statsKids cs d none s).max_depth = lastD (rawVnodeKids cs d) s.max_depth := by
  cases cs with
  | nil => rfl
  | cons l c rest =>
    have h1 := statsHelper_md c d s
    have h2 := statsKids_md rest d (statsHelper c d none s)
    simp only [statsKids, rawVnodeKids, lastD_append]
    rw [h2, h1]
end

theorem treeStats_md (t : PTree) :
    (treeStats t).max_depth = lastD (rawVnodeDepths t 0) (-1) := by
  have h := statsHelper_md t 0 initStats
  simpa [treeStats, initStats] using h

mutual
theorem statsHelper_counts (t : PTree) (d : Nat) (s : StatsRec) :
    (statsHelper t d none s).total_vnodes = s.total_vnodes + countV t ∧
    (statsHelper t d none s).total_qnodes = s.total_qnodes + countQ t := by
  cases t with
  | node k nv v cs =>
    have hk := statsKids_counts cs (d + 1) (statsVisit s k cs.toList.length d)
    cases k with
    | vnode =>
      refine ⟨?_, ?_⟩
      · simp only [statsHelper, mxExceeded, Bool.false_eq_true, if_false]
        rw [hk.1]
        simp [statsVisit, countV]
        omega
      · simp only [statsHelper, mxExceeded, Bool.false_eq_true, if_false]
        rw [hk.2]
        simp [statsVisit, countQ]
    | qnode =>
      refine ⟨?_, ?_⟩
      · simp only [statsHelper, mxExceeded, Bool.false_eq_true, if_false]
        rw [hk.1]
        simp [statsVisit, countV]
      · simp only [statsHelper, mxExceeded, Bool.false_eq_true, if_false]
        rw [hk.2]
        simp [statsVisit, countQ]
        omega
theorem statsKids_counts (cs : Children) (d : Nat) (s : StatsRec) :
    (statsKids cs d none s).total_vnodes = s.total_vnodes + countVK cs ∧
    (statsKids cs d none s).total_qnodes = s.total_qnodes + countQK cs := by
  cases cs with
  | nil => simp [statsKids, countVK, countQK]
  | cons l c rest =>
    have h1 := statsHelper_counts c d s
    have h2 := statsKids_counts rest d (statsHelper c d none s)
    simp only [statsKids, countVK, countQK]
    omega
end

mutual
theorem hasV_raw (t : PTree) (d : Nat) (h : hasVNode t = false) : rawVnodeDepths t d = [] := by
  cases t with
  | node k nv v cs =>
    simp only [hasVNode, Bool.or_eq_false_iff, beq_eq_false_iff_ne] at h
    cases k with
    | vnode => exact absurd rfl h.1
    | qnode => simp [rawVnodeDepths, hasVK_raw cs (d + 1) h.2]
theorem hasVK_raw (cs : Children) (d : Nat) (h : hasVKids cs = false) : rawVnodeKids cs d = [] := by
  cases cs with
  | nil => rfl
  | cons l c rest =>
    simp only [hasVKids, Bool.or_eq_false_iff] at h
    simp [rawVnodeKids, hasV_raw c d h.1, hasVK_raw rest d h.2]
end

/-- Claim C1, counterexample: on the concrete alternating tree cexC1 the
max_depth field computed by tree_stats (2, the raw-edge depth of the last
decision node visited) differs from the maximum over all decision nodes of
the action-to-decision depth (3), so the claim as stated fails. -/
theorem c1_stats_depth_cex :
    (treeStats cexC1).max_depth ≠ specMaxDecisionDepth cexC1 := by decide

/-- Claim C1, amended: the max_depth field of the StatsRecord computed by
tree_stats equals the raw-edge depth (every parent-to-child step increments
the depth by 1, action nodes included) of the last decision node of the
pre-order, mapping-order traversal, or -1 when the subtree has no decision
node; it is an assignment, not a running maximum. -/
theorem c1_stats_depth_amended (t : PTree) :
    (treeStats t).max_depth = lastD (rawVnodeDepths t 0) (-1) :=
  treeStats_md t

/-- Claim C8: num_nodes of kind all equals the decision-node count plus the
action-node count of the subtree rooted at the current node, the per-kind
counts are the exact node counts, and any unrecognized kind is rejected
with the invalid-argument error. -/
theorem c8_num_nodes (t : PTree) :
    numNodes t ("all") = .ok (countV t + countQ t) ∧
    numNodes t ("v") = .ok (countV t) ∧
    numNodes t ("q") = .ok (countQ t) ∧
    ∀ k : String, k ≠ "all" → k ≠ "q" → k ≠ "v" →
      numNodes t k = .error ("Invalid value for kind=" ++ k) := by
  have hc := statsHelper_counts t 0 initStats
  have hv : (treeStats t).total_vnodes = countV t := by
    simp only [treeStats] at *
    simpa [initStats] using hc.1
  have hq : (treeStats t).total_qnodes = countQ t := by
    simp only [treeStats] at *
    simpa [initStats] using hc.2
  refine ⟨?_, ?_, ?_, ?_⟩
  · simp [numNodes, hv, hq]
  · simp [numNodes, hv]
  · simp [numNodes, hq]
  · intro k h1 h2 h3
    simp [numNodes, h1, h2, h3]

/-- Witness for C8: concrete evaluation at the scenario tree, with the
unrecognized kind string rejected. -/
theorem c8_num_nodes_witness :
    numNodes scenarioTree ("all") = .ok (countV scenarioTree + countQ scenarioTree) ∧
    numNodes scenarioTree ("action") = .error ("Invalid value for kind=" ++ "action") := by
  have h := c8_num_nodes scenarioTree
  exact ⟨h.1, h.2.2.2 ("action") (by decide) (by decide) (by decide)⟩

/-- Claim C10: when the subtree of the current node has no decision node,
the max_depth field keeps its initial value -1, the debugger depth property
returns -1, and layer raises the out-of-range error for every requested
depth d with d at least 0. -/
theorem c10_no_decision_depth (t : PTree) (h : hasVNode t = false) :
    depthProp t = -1 ∧ (treeStats t).max_depth = -1 ∧
      ∀ d : Int, 0 ≤ d → ∃ msg, layer t d = .error msg := by
  have hmd : (treeStats t).max_depth = -1 := by
    rw [treeStats_md, hasV_raw t 0 h]
    rfl
  refine ⟨hmd, hmd, ?_⟩
  intro d hd
  have hcond : d < 0 ∨ (treeStats t).max_depth < d := Or.inr (by omega)
  simp only [layer, if_pos hcond]
  exact ⟨_, rfl⟩

/-- Witness for C10: a childless action node as the current node. -/
theorem c10_no_decision_depth_witness :
    depthProp qLeaf = -1 ∧ (treeStats qLeaf).max_depth = -1 ∧
      ∃ msg, layer qLeaf 0 = .error msg := by
  have h := c10_no_decision_depth qLeaf (by decide)
  exact ⟨h.1, h.2.1, h.2.2 0 (by decide)⟩

/- Helper lemmas about the preferred-action scan. -/

theorem bestPairGo_spec (rest : List (String × PTree)) (best : String × PTree) :
    ∃ pre post, best :: rest = pre ++ bestPairGo best rest :: post ∧
      (∀ q ∈ pre, q.2.value < (bestPairGo best rest).2.value) ∧
      (∀ q ∈ best :: rest, q.2.value ≤ (bestPairGo best rest).2.value) := by
  induction rest generalizing best with
  | nil =>
    refine ⟨[], [], ?_, ?_, ?_⟩ <;> simp [bestPairGo]
  | cons p rest ih =>
    by_cases h : best.2.value < p.2.value
    · have hstep : bestPairGo best (p :: rest) = bestPairGo p rest := by
        simp [bestPairGo, bestStep, if_pos h]
      obtain ⟨pre, post, heq, hpre, hall⟩ := ih p
      refine ⟨best :: pre, post, ?_, ?_, ?_⟩
      · rw [hstep]
        simpa using congrArg (best :: ·) heq
      · intro q hq
        rw [hstep]
        rcases List.mem_cons.mp hq with hq | hq
        · subst hq
          exact lt_of_lt_of_le h (hall p (by simp))
        · exact hpre q hq
      · intro q hq
        rw [hstep]
        rcases List.mem_cons.mp hq with hq | hq
        · subst hq
          exact le_of_lt (lt_of_lt_of_le h (hall p (by simp)))
        · exact hall q hq
    · have hstep : bestPairGo best (p :: rest) = bestPairGo best rest := by
        simp [bestPairGo, bestStep, if_neg h]
      have hple : p.2.value ≤ best.2.value := le_of_not_lt h
      obtain ⟨pre, post, heq, hpre, hall⟩ := ih best
      cases pre with
      | nil =>
        simp only [List.nil_append] at heq
        injection heq with h1 h2
        refine ⟨[], p :: rest, ?_, ?_, ?_⟩
        · rw [hstep, ← h1]
          simp
        · intro q hq
          simp at hq
        · intro q hq
          rw [hstep]
          rcases List.mem_cons.mp hq with hq | hq
          · rw [hq]
            exact hall best (by simp)
          · rcases List.mem_cons.mp hq with hq | hq
            · rw [hq]
              exact le_trans hple (hall best (by simp))
            · exact hall q (by simp [hq])
      | cons x pre' =>
        simp only [List.cons_append] at heq
        injection heq with h1 h2
        refine ⟨best :: p :: pre', post, ?_, ?_, ?_⟩
        · rw [hstep]
          simp only [List.cons_append]
          rw [← h2]
        · intro q hq
          rw [hstep]
          have hbestlt : best.2.value < (bestPairGo best rest).2.value := by
            have hx := hpre x (by simp)
            rwa [← h1] at hx
          rcases List.mem_cons.mp hq with hq | hq
          · rw [hq]
            exact hbestlt
          · rcases List.mem_cons.mp hq with hq | hq
            · rw [hq]
              exact lt_of_le_of_lt hple hbestlt
            · exact hpre q (by simp [hq])
        · intro q hq
          rw [hstep]
          rcases List.mem_cons.mp hq with hq | hq
          · rw [hq]
            exact hall best (by simp)
          · rcases List.mem_cons.mp hq with hq | hq
            · rw [hq]
              exact le_trans hple (hall best (by simp))
            · exact hall q (by simp [hq])

theorem sizeP_pos (t : PTree) : 0 < sizeP t := by
  cases t with
  | node k nv v cs => simp [sizeP]

theorem mem_sizeK (cs : Children) {l : String} {c : PTree}
    (h : (l, c) ∈ cs.toList) : sizeP c ≤ sizeK cs := by
  cases cs with
  | nil => simp [Children.toList] at h
  | cons l0 c0 rest =>
    simp only [Children.toList, List.mem_cons] at h
    rcases h with h | h
    · have : c = c0 := congrArg Prod.snd h
      rw [this]
      simp [sizeK]
    · have := mem_sizeK rest h
      simp only [sizeK]
      omega

theorem bestPairL_mem {cl : List (String × PTree)} {r : String × PTree}
    (h : bestPairL cl = some r) : r ∈ cl := by
  cases cl with
  | nil => simp [bestPairL] at h
  | cons p rest =>
    simp only [bestPairL, Option.some.injEq] at h
    obtain ⟨pre, post, heq, hpre, hall⟩ := bestPairGo_spec rest p
    rw [← h, heq]
    simp

theorem prefTraceF_stable (f1 : Nat) : ∀ (f2 : Nat) (t : PTree) (d : Nat) (mx : Option Nat),
    sizeP t ≤ f1 → sizeP t ≤ f2 → prefTraceF f1 t d mx = prefTraceF f2 t d mx := by
  induction f1 with
  | zero =>
    intro f2 t d mx h1 h2
    have := sizeP_pos t
    omega
  | succ f1 ih =>
    intro f2 t d mx h1 h2
    cases f2 with
    | zero =>
      have := sizeP_pos t
      omega
    | succ f2 =>
      simp only [prefTraceF]
      cases hr : mxReached mx d with
      | true => simp
      | false =>
        simp only [Bool.false_eq_true, if_false]
        cases hb : bestPairL t.children.toList with
        | none => rfl
        | some r =>
          obtain ⟨bl, bc⟩ := r
          have hmem : (bl, bc) ∈ t.children.toList := bestPairL_mem hb
          have hsz : sizeP bc < sizeP t := by
            have h1 := mem_sizeK t.children hmem
            cases t with
            | node k nv v cs =>
              simp only [PTree.children] at h1
              simp only [sizeP]
              omega
          have hrec := ih f2 bc (d + 1) mx (by omega) (by omega)
          simp [hrec]

/-- Claim C6: the preferred-path scan over a children list selects the
child with the strictly greatest value (every child before the selected
one has a strictly smaller value, so a tie keeps the first encountered,
and every child has a value at most the selected value); the equally-good
collection holds exactly the other children whose value equals the best
value; and on the scenario node the trace selects down with an empty
equally-good set. -/
theorem c6_preferred_path (cl : List (String × PTree)) :
    (bestPairL cl = none ↔ cl = []) ∧
    (∀ bl bc, bestPairL cl = some (bl, bc) →
      ∃ pre post, cl = pre ++ (bl, bc) :: post ∧
        (∀ q ∈ pre, q.2.value < bc.value) ∧
        (∀ q ∈ cl, q.2.value ≤ bc.value)) ∧
    (∀ bl bc, bestPairL cl = some (bl, bc) →
      equallyGoodLabels cl bl bc.value =
        (cl.filter (fun q => decide (¬ q.1 = bl ∧ q.2.value = bc.value))).map Prod.fst) ∧
    printPreferredActions scenarioTree none = [(("down" : String), ([] : List String))] := by
  refine ⟨?_, ?_, ?_, by decide⟩
  · cases cl <;> simp [bestPairL]
  · intro bl bc hb
    cases cl with
    | nil => simp [bestPairL] at hb
    | cons p rest =>
      simp only [bestPairL, Option.some.injEq] at hb
      obtain ⟨pre, post, heq, hpre, hall⟩ := bestPairGo_spec rest p
      rw [hb] at heq hpre hall
      exact ⟨pre, post, heq, hpre, hall⟩
  · intro bl bc hb
    unfold equallyGoodLabels
    congr 1
    apply List.filter_congr
    intro q hq
    by_cases h1 : q.1 = bl <;> by_cases h2 : q.2.value = bc.value <;> simp [h1, h2]

/-- Witness for C6: the selection characterization applied at the scenario
children list, where down (value 2.0) beats up (value 1.0). -/
theorem c6_preferred_path_witness :
    ∃ pre post, [(("up" : String), upChild), ("down", downChild)] =
        pre ++ ("down", downChild) :: post ∧
      (∀ q ∈ pre, q.2.value < downChild.value) ∧
      (∀ q ∈ [(("up" : String), upChild), ("down", downChild)], q.2.value ≤ downChild.value) :=
  (c6_preferred_path [(("up"), upChild), (("down"), downChild)]).2.1 ("down") downChild (by decide)

/- Helper lemmas about the child lookup. -/

theorem insertPair_length (x : String × PTree) (l : List (String × PTree)) :
    (insertPair x l).length = l.length + 1 := by
  induction l with
  | nil => rfl
  | cons y ys ih =>
    simp only [insertPair]
    by_cases h : strLe x.1 y.1 = true
    · simp [h]
    · simp [h, ih]

theorem sortPairs_length (l : List (String × PTree)) : (sortPairs l).length = l.length := by
  induction l with
  | nil => rfl
  | cons x xs ih => simp [sortPairs, insertPair_length, ih]

theorem pyIndex_spec {α : Type} (l : List α) (i : Int) :
    (pyIndex l i = none ↔ (i < -(l.length : Int) ∨ (l.length : Int) ≤ i)) ∧
    (0 ≤ i → i < (l.length : Int) → pyIndex l i = l[i.toNat]?) ∧
    (-(l.length : Int) ≤ i → i < 0 → pyIndex l i = l[((l.length : Int) + i).toNat]?) := by
  by_cases h1 : 0 ≤ i ∧ i < (l.length : Int)
  · have hb : i.toNat < l.length := by omega
    refine ⟨?_, fun _ _ => by simp [pyIndex, h1], fun _ h => by omega⟩
    simp [pyIndex, h1, List.getElem?_eq_getElem hb]
    omega
  · by_cases h2 : -(l.length : Int) ≤ i ∧ i < 0
    · have hb : ((l.length : Int) + i).toNat < l.length := by omega
      refine ⟨?_, fun h h' => by omega, fun _ _ => by simp [pyIndex, h1, h2]⟩
      simp [pyIndex, h1, h2, List.getElem?_eq_getElem hb]
      omega
    · refine ⟨?_, fun h h' => by omega, fun h h' => by omega⟩
      simp [pyIndex, h1, h2]
      omega

theorem argmaxGo_spec (sim : String → String → Rat) (s : String)
    (rest : List (String × PTree)) (best : String × PTree) :
    (argmaxGo sim s best rest = best ∨ argmaxGo sim s best rest ∈ rest) ∧
    sim best.1 s ≤ sim (argmaxGo sim s best rest).1 s ∧
    (∀ q ∈ rest, sim q.1 s ≤ sim (argmaxGo sim s best rest).1 s) := by
  induction rest generalizing best with
  | nil =>
    refine ⟨Or.inl ?_, ?_, ?_⟩ <;> simp [argmaxGo]
  | cons p rest ih =>
    by_cases h : sim best.1 s < sim p.1 s
    · have hstep : argmaxGo sim s best (p :: rest) = argmaxGo sim s p rest := by
        simp [argmaxGo, if_pos h]
      obtain ⟨hm, hb, hall⟩ := ih p
      rw [hstep]
      refine ⟨?_, le_trans (le_of_lt h) hb, ?_⟩
      · rcases hm with hm | hm
        · exact Or.inr (by simp [hm])
        · exact Or.inr (by simp [hm])
      · intro q hq
        rcases List.mem_cons.mp hq with hq | hq
        · rw [hq]
          exact hb
        · exact hall q hq
    · have hstep : argmaxGo sim s best (p :: rest) = argmaxGo sim s best rest := by
        simp [argmaxGo, if_neg h]
      obtain ⟨hm, hb, hall⟩ := ih best
      rw [hstep]
      refine ⟨?_, hb, ?_⟩
      · rcases hm with hm | hm
        · exact Or.inl hm
        · exact Or.inr (by simp [hm])
      · intro q hq
        rcases List.mem_cons.mp hq with hq | hq
        · rw [hq]
          exact le_trans (le_of_not_lt h) hb
        · exact hall q hq

/-- Claim C4, counterexample: on the scenario node (two children) the
integer key -1 is outside [0, 2) yet the lookup does not raise, it returns
the last child of the sorted listing (Python negative indexing). -/
theorem c4_index_lookup_cex :
    getItem sim0 scenarioTree (.ikey (-1)) ≠ .error .indexOutOfRange ∧
    ¬ (0 ≤ (-1 : Int) ∧ (-1 : Int) < (scenarioTree.children.toList.length : Int)) ∧
    getItem sim0 scenarioTree (.ikey (-1)) = .ok (("up"), upChild) := by decide

/-- Claim C4, amended: an integer key fails with IndexOutOfRange exactly
when it is outside [-len, len); a key in [0, len) returns the pair at that
position of the children sorted by edge label (the proxy keeps that label
as its parent edge), and a key in [-len, 0) returns the pair at position
len + key, as Python list indexing does. -/
theorem c4_index_lookup_amended (sim : String → String → Rat) (t : PTree) (i : Int) :
    (getItem sim t (.ikey i) = .error .indexOutOfRange ↔
      (i < -(t.children.toList.length : Int) ∨ (t.children.toList.length : Int) ≤ i)) ∧
    (0 ≤ i → i < (t.children.toList.length : Int) →
      ∃ h : i.toNat < (sortPairs t.children.toList).length,
        getItem sim t (.ikey i) = .ok ((sortPairs t.children.toList).get ⟨i.toNat, h⟩)) ∧
    (-(t.children.toList.length : Int) ≤ i → i < 0 →
      ∃ h : ((t.children.toList.length : Int) + i).toNat < (sortPairs t.children.toList).length,
        getItem sim t (.ikey i) = .ok ((sortPairs t.children.toList).get
          ⟨((t.children.toList.length : Int) + i).toNat, h⟩)) := by
  have hlen : (sortPairs t.children.toList).length = t.children.toList.length :=
    sortPairs_length _
  have hps := pyIndex_spec (sortPairs t.children.toList) i
  refine ⟨?_, ?_, ?_⟩
  · rw [hlen] at hps
    cases hp : pyIndex (sortPairs t.children.toList) i with
    | none =>
      simp only [getItem, hp]
      simp [hps.1.mp hp]
    | some p =>
      simp only [getItem, hp]
      constructor
      · intro h
        exact absurd h (by simp)
      · intro h
        have : pyIndex (sortPairs t.children.toList) i = none := hps.1.mpr h
        rw [hp] at this
        exact absurd this (by simp)
  · intro h0 hl
    have hb : i.toNat < (sortPairs t.children.toList).length := by omega
    have hpe : pyIndex (sortPairs t.children.toList) i =
        (sortPairs t.children.toList)[i.toNat]? := hps.2.1 h0 (by omega)
    refine ⟨hb, ?_⟩
    simp only [getItem, hpe, List.getElem?_eq_getElem hb]
    rfl
  · intro hn h0
    have hb : ((t.children.toList.length : Int) + i).toNat <
        (sortPairs t.children.toList).length := by omega
    have hpe : pyIndex (sortPairs t.children.toList) i =
        (sortPairs t.children.toList)[((sortPairs t.children.toList).length : Int) + i |>.toNat]? :=
      hps.2.2 (by omega) h0
    refine ⟨hb, ?_⟩
    rw [hlen] at hpe
    simp only [getItem, hpe, List.getElem?_eq_getElem hb]
    rfl

/-- Witness for C4 (amended): key -1 on the scenario node returns position
2 - 1 = 1 of the sorted children, the pair labelled up. -/
theorem c4_index_lookup_witness :
    ∃ h : ((scenarioTree.children.toList.length : Int) + -1).toNat <
        (sortPairs scenarioTree.children.toList).length,
      getItem sim0 scenarioTree (.ikey (-1)) = .ok ((sortPairs scenarioTree.children.toList).get
        ⟨((scenarioTree.children.toList.length : Int) + -1).toNat, h⟩) :=
  (c4_index_lookup_amended sim0 scenarioTree (-1)).2.2 (by decide) (by decide)

/-- Claim C5, counterexample: fuzzy lookup on a node with no children does
not fail with the InvalidKey error naming the offending key; the max over
the empty key sequence fails first, with an error that does not mention
the key. -/
theorem c5_fuzzy_lookup_cex :
    getItem sim0 qLeaf (.skey ("x")) = .error .emptyMax ∧
    getItem sim0 qLeaf (.skey ("x")) ≠ .error (.invalidKey ("x")) := by decide

/-- Claim C5, amended: for a string key that matches no edge label
exactly, on a node with at least one child the lookup selects the edge of
maximum similarity to the key (ties keep the first in mapping order) and
returns its child when that maximum reaches the 0.6 threshold, failing
with InvalidKey naming the key otherwise; on a childless node the max over
the empty edge sequence fails instead, without naming the key. -/
theorem c5_fuzzy_lookup_amended (sim : String → String → Rat) (t : PTree) (s : String)
    (hne : findPair t.children.toList s = none) :
    (t.children.toList = [] → getItem sim t (.skey s) = .error .emptyMax) ∧
    (∀ p0 rest, t.children.toList = p0 :: rest →
      argmaxGo sim s p0 rest ∈ t.children.toList ∧
      (∀ q ∈ t.children.toList, sim q.1 s ≤ sim (argmaxGo sim s p0 rest).1 s) ∧
      (SIMILAR_THRESH ≤ sim (argmaxGo sim s p0 rest).1 s →
        getItem sim t (.skey s) = .ok (argmaxGo sim s p0 rest)) ∧
      (sim (argmaxGo sim s p0 rest).1 s < SIMILAR_THRESH →
        getItem sim t (.skey s) = .error (.invalidKey s))) := by
  constructor
  · intro h
    rw [h] at hne
    simp only [getItem, h, hne]
  · intro p0 rest hcl
    obtain ⟨hm, hb, hall⟩ := argmaxGo_spec sim s rest p0
    refine ⟨?_, ?_, ?_, ?_⟩
    · rw [hcl]
      rcases hm with hm | hm
      · simp [hm]
      · simp [hm]
    · intro q hq
      rw [hcl] at hq
      rcases List.mem_cons.mp hq with hq | hq
      · rw [hq]
        exact hb
      · exact hall q hq
    · intro hth
      rw [hcl] at hne
      simp only [getItem, hcl, hne]
      rw [if_pos hth]
    · intro hth
      rw [hcl] at hne
      simp only [getItem, hcl, hne]
      rw [if_neg (not_le.mpr hth)]

/-- Witness for C5 (amended): with a constant similarity of 0 (below the
threshold against every edge) the lookup of a non-matching key on the
scenario node fails with InvalidKey naming that key. -/
theorem c5_fuzzy_lookup_witness :
    getItem sim0 scenarioTree (.skey ("zz")) = .error (.invalidKey ("zz")) := by
  have h := (c5_fuzzy_lookup_amended sim0 scenarioTree ("zz") (by decide)).2
      (("up"), upChild) [(("down"), downChild)] (by decide)
  exact h.2.2.2 (by decide)

theorem mxExceeded_zero (mx : Option Nat) : mxExceeded mx 0 = false := by
  cases mx with
  | none => rfl
  | some m => simp [mxExceeded]

theorem singleNodeStr_ne (t : PTree) (pe : Option String) :
    singleNodeStr t pe false ≠ singleNodeStr t pe true := by
  intro h
  have hl := congrArg String.length h
  simp only [singleNodeStr, Bool.false_eq_true, if_false, if_true, String.length_append] at hl
  have h1 : ("\n" : String).length = 1 := rfl
  rw [h1] at hl
  omega

/-- Claim C9: rendering from a proxy clears that proxy's print_children
flag (initialized true at construction): the call returns the emitted
lines and the updated proxy, whose wrapped node and parent edge are
unchanged, but whose subsequent string form (and the string form of a
debugger whose current it is) omits the indented per-child listing it
included before the first render. -/
theorem c9_render_flag_effect (t : PTree) (pe : Option String) (mx : Option Nat) (mode : String) :
    (mkProxy t pe).printChildren = true ∧
    printTreeP (mkProxy t pe) mx mode =
      ((ptHelper (sortTree t) pe [none] 0 mx mode []).map lineOf, ⟨t, pe, false⟩) ∧
    proxyStr ((printTreeP (mkProxy t pe) mx mode).2) ≠ proxyStr (mkProxy t pe) ∧
    ∀ r : Proxy, debuggerStr ⟨r, (printTreeP (mkProxy t pe) mx mode).2⟩ =
      singleNodeStr t pe false := by
  have hmx := mxExceeded_zero mx
  have hpt : printTreeP (mkProxy t pe) mx mode =
      ((ptHelper (sortTree t) pe [none] 0 mx mode []).map lineOf, ⟨t, pe, false⟩) := by
    simp only [printTreeP, mkProxy, hmx, Bool.false_eq_true, if_false]
  refine ⟨rfl, hpt, ?_, ?_⟩
  · rw [hpt]
    exact singleNodeStr_ne t pe
  · intro r
    rw [hpt]
    rfl

theorem childInc_q {c : PTree} (h : c.kind = Kind.qnode) : childInc c = 0 := by
  simp [childInc, h]

theorem childInc_v {c : PTree} (h : c.kind = Kind.vnode) : childInc c = 1 := by
  simp [childInc, h]

mutual
theorem layerHelper_sound (u : PTree) (cur tgt : Nat) (n : PTree)
    (hn : n ∈ layerHelper u cur tgt) :
    n.kind = Kind.vnode ∧ ∃ p e, StepsKeep (fun _ => True) u p n e ∧ cur + e = tgt := by
  cases u with
  | node k nv v cs =>
    by_cases hc : cur = tgt
    · cases k with
      | vnode =>
        simp only [layerHelper, if_pos hc] at hn
        rcases List.mem_singleton.mp hn with rfl
        exact ⟨rfl, [], 0, StepsKeep.here _, by omega⟩
      | qnode =>
        simp only [layerHelper, if_pos hc] at hn
        simp at hn
    · simp only [layerHelper, if_neg hc] at hn
      obtain ⟨l, c, hmem, hkind, p, e, hst, hd⟩ := layerKids_sound cs cur tgt n hn
      refine ⟨hkind, l :: p, childInc c + e, ?_, ?_⟩
      · exact StepsKeep.step hmem trivial hst
      · cases hck : c.kind with
        | vnode =>
          rw [childInc_v hck]
          rw [hck] at hd
          simp at hd
          omega
        | qnode =>
          rw [childInc_q hck]
          rw [hck] at hd
          simp at hd
          omega
theorem layerKids_sound (cs : Children) (cur tgt : Nat) (n : PTree)
    (hn : n ∈ layerKids cs cur tgt) :
    ∃ l c, (l, c) ∈ cs.toList ∧ n.kind = Kind.vnode ∧
      ∃ p e, StepsKeep (fun _ => True) c p n e ∧
        (if c.kind == Kind.qnode then cur else cur + 1) + e = tgt := by
  cases cs with
  | nil => simp [layerKids, Children.toList] at hn
  | cons l0 c0 rest =>
    simp only [layerKids] at hn
    rcases List.mem_append.mp hn with hn | hn
    · obtain ⟨hkind, p, e, hst, hd⟩ := layerHelper_sound c0 _ tgt n hn
      exact ⟨l0, c0, by simp [Children.toList], hkind, p, e, hst, hd⟩
    · obtain ⟨l, c, hmem, hrest⟩ := layerKids_sound rest cur tgt n hn
      exact ⟨l, c, by simp [Children.toList, hmem], hrest⟩
end

/-- Claim C3: layer raises the out-of-range error exactly when the
requested depth is negative or exceeds the cached max_depth field of the
stats record of the current node; otherwise it returns only decision-kind
nodes, each reachable from the (sorted copy of the) current node by a
path whose renderer depth (one increment per decision node entered, which
under the alternating-kind tree invariant is exactly one increment per
action-to-decision transition) equals the requested depth. -/
theorem c3_layer (t : PTree) (d : Int) :
    ((∃ msg, layer t d = .error msg) ↔ (d < 0 ∨ (treeStats t).max_depth < d)) ∧
    (∀ ns, layer t d = .ok ns → ∀ n, n ∈ ns →
      n.kind = Kind.vnode ∧ ∃ p, StepsKeep (fun _ => True) (sortTree t) p n d.toNat) := by
  by_cases hc : d < 0 ∨ (treeStats t).max_depth < d
  · constructor
    · simp only [layer, if_pos hc]
      exact ⟨fun _ => hc, fun _ => ⟨_, rfl⟩⟩
    · intro ns hns
      simp only [layer, if_pos hc] at hns
      exact absurd hns (by simp)
  · constructor
    · simp only [layer, if_neg hc]
      constructor
      · intro ⟨msg, hmsg⟩
        exact absurd hmsg (by simp)
      · intro h
        exact absurd h hc
    · intro ns hns n hn
      simp only [layer, if_neg hc, Except.ok.injEq] at hns
      rw [← hns] at hn
      obtain ⟨hkind, p, e, hst, hd⟩ := layerHelper_sound (sortTree t) 0 d.toNat n hn
      refine ⟨hkind, p, ?_⟩
      have : e = d.toNat := by omega
      rwa [this] at hst

/-- Witness for C3: a single decision node returned by layer at depth 0. -/
theorem c3_layer_witness :
    vLeaf.kind = Kind.vnode ∧
      ∃ p, StepsKeep (fun _ => True) (sortTree vLeaf) p vLeaf (0 : Int).toNat :=
  (c3_layer vLeaf 0).2 [vLeaf] (by decide) vLeaf (by decide)

/- Helper lemmas about the renderer traversal. -/

theorem mxOK_of_not_exceeded {mx : Option Nat} {d : Nat} (h : mxExceeded mx d = false) :
    mxOK mx d := by
  cases mx with
  | none => trivial
  | some m =>
    simp [mxExceeded] at h
    simpa [mxOK] using h

theorem mxExceeded_false_of_mxOK {mx : Option Nat} {d : Nat} (h : mxOK mx d) :
    mxExceeded mx d = false := by
  cases mx with
  | none => rfl
  | some m =>
    simp [mxOK] at h
    simp [mxExceeded]
    omega

theorem mxOK_mono {mx : Option Nat} {a b : Nat} (hab : a ≤ b) (hb : mxOK mx b) : mxOK mx a := by
  cases mx with
  | none => trivial
  | some m =>
    simp [mxOK] at hb ⊢
    omega

theorem nextDepth_eq (c : PTree) (d : Nat) :
    (if c.kind == Kind.qnode then d else d + 1) = d + childInc c := by
  cases hck : c.kind with
  | vnode => rw [childInc_v hck]; simp
  | qnode => rw [childInc_q hck]; simp

mutual
theorem ptHelper_sound (u : PTree) (pe : Option String) (bps : List (Option BPos)) (d : Nat)
    (mx : Option Nat) (mode : String) (pacc : List String) (v : Visit)
    (hv : v ∈ ptHelper u pe bps d mx mode pacc) :
    ∃ rel e, v.path = pacc ++ rel ∧ v.depth = d + e ∧ mxOK mx v.depth ∧
      StepsKeep (keepP mode) u rel v.node e := by
  cases u with
  | node k nv val cs =>
    cases hg : mxExceeded mx d with
    | true =>
      simp only [ptHelper, hg, if_true] at hv
      simp at hv
    | false =>
      simp only [ptHelper, hg, Bool.false_eq_true, if_false] at hv
      rcases List.mem_cons.mp hv with hv | hv
      · rw [hv]
        exact ⟨[], 0, by simp, by simp, mxOK_of_not_exceeded hg, StepsKeep.here _⟩
      · obtain ⟨l, c, rel, e, hmem, hkeep, hpath, hdepth, hmx, hst⟩ :=
          ptKids_sound cs 0 cs.toList.length d mx mode bps pacc v hv
        exact ⟨l :: rel, childInc c + e, hpath, hdepth, hmx,
          StepsKeep.step hmem hkeep hst⟩
theorem ptKids_sound (cs : Children) (i n d : Nat) (mx : Option Nat) (mode : String)
    (bps : List (Option BPos)) (pacc : List String) (v : Visit)
    (hv : v ∈ ptKids cs i n d mx mode bps pacc) :
    ∃ l c rel e, (l, c) ∈ cs.toList ∧ keepP mode c ∧ v.path = pacc ++ l :: rel ∧
      v.depth = d + (childInc c + e) ∧ mxOK mx v.depth ∧
      StepsKeep (keepP mode) c rel v.node e := by
  cases cs with
  | nil => simp [ptKids] at hv
  | cons l0 c0 rest =>
    simp only [ptKids] at hv
    rcases List.mem_append.mp hv with hv | hv
    · cases hk : keepB mode c0 with
      | false =>
        rw [hk] at hv
        simp at hv
      | true =>
        rw [hk, if_pos rfl] at hv
        obtain ⟨rel, e, hpath, hdepth, hmx, hst⟩ := ptHelper_sound c0 (some l0)
          (bps ++ [some (posOf i n)]) (if c0.kind == Kind.qnode then d else d + 1)
          mx mode (pacc ++ [l0]) v hv
        refine ⟨l0, c0, rel, e, by simp [Children.toList], hk, ?_, ?_, hmx, hst⟩
        · rw [hpath, List.append_assoc]
          rfl
        · rw [hdepth, nextDepth_eq]
          omega
    · obtain ⟨l, c, rel, e, hmem, hrest⟩ := ptKids_sound rest (i + 1) n d mx mode bps pacc v hv
      exact ⟨l, c, rel, e, by simp [Children.toList, hmem], hrest⟩
end

theorem ptKids_cover (mode : String) (cs : Children) (l : String) (c : PTree)
    (hmem : (l, c) ∈ cs.toList) (hkeep : keepB mode c = true) (P : Visit → Prop)
    (i n d : Nat) (mx : Option Nat) (bps : List (Option BPos)) (pacc : List String)
    (H : ∀ bps2 : List (Option BPos), ∃ v, v ∈ ptHelper c (some l) bps2
        (if c.kind == Kind.qnode then d else d + 1) mx mode (pacc ++ [l]) ∧ P v) :
    ∃ v, v ∈ ptKids cs i n d mx mode bps pacc ∧ P v := by
  cases cs with
  | nil => simp [Children.toList] at hmem
  | cons l0 c0 rest =>
    simp only [Children.toList, List.mem_cons] at hmem
    rcases hmem with hmem | hmem
    · obtain ⟨hl, hc⟩ := Prod.mk.injEq l c l0 c0 ▸ hmem
      subst hl
      subst hc
      obtain ⟨v, hvm, hvp⟩ := H (bps ++ [some (posOf i n)])
      refine ⟨v, ?_, hvp⟩
      simp only [ptKids, hkeep, if_pos rfl]
      exact List.mem_append_left _ hvm
    · obtain ⟨v, hvm, hvp⟩ := ptKids_cover mode rest l c hmem hkeep P (i + 1) n d mx bps pacc H
      refine ⟨v, ?_, hvp⟩
      simp only [ptKids]
      exact List.mem_append_right _ hvm

theorem ptHelper_complete {mode : String} {keep : PTree → Prop}
    (hbridge : ∀ c, keepB mode c = true ↔ keep c)
    {u : PTree} {p : List String} {nn : PTree} {e : Nat}
    (hs : StepsKeep keep u p nn e) :
    ∀ (d : Nat) (mx : Option Nat), mxOK mx (d + e) →
    ∀ (pe : Option String) (bps : List (Option BPos)) (pacc : List String),
    ∃ v, v ∈ ptHelper u pe bps d mx mode pacc ∧
      v.path = pacc ++ p ∧ v.node = nn ∧ v.depth = d + e := by
  induction hs with
  | here w =>
    intro d mx hmx pe bps pacc
    refine ⟨⟨w, pe, bps, d, pacc⟩, ?_, by simp, rfl, by simp⟩
    cases w with
    | node k nv val cs =>
      have hg : mxExceeded mx d = false := mxExceeded_false_of_mxOK (by simpa using hmx)
      simp only [ptHelper, hg, Bool.false_eq_true, if_false]
      exact List.mem_cons_self _ _
  | @step w c m l pp ee hmem hkeep hrec ih =>
    intro d mx hmx pe bps pacc
    have hk : keepB mode c = true := (hbridge c).mpr hkeep
    have H : ∀ bps2 : List (Option BPos), ∃ v, v ∈ ptHelper c (some l) bps2
        (if c.kind == Kind.qnode then d else d + 1) mx mode (pacc ++ [l]) ∧
        (v.path = (pacc ++ [l]) ++ pp ∧ v.node = m ∧ v.depth = (d + childInc c) + ee) := by
      intro bps2
      rw [nextDepth_eq]
      exact ih (d + childInc c) mx (by apply mxOK_mono _ hmx; omega) (some l) bps2 (pacc ++ [l])
    cases w with
    | node k nv val cs =>
      obtain ⟨v, hvm, hvpath, hvnode, hvdepth⟩ := ptKids_cover mode cs l c hmem hk _
        0 cs.toList.length d mx bps pacc H
      have hg : mxExceeded mx d = false :=
        mxExceeded_false_of_mxOK (mxOK_mono (by omega) hmx)
      refine ⟨v, ?_, ?_, hvnode, ?_⟩
      · simp only [ptHelper, hg, Bool.false_eq_true, if_false]
        exact List.mem_cons_of_mem _ hvm
      · rw [hvpath, List.append_assoc]
        rfl
      · rw [hvdepth]
        omega

theorem keepB_summary (c : PTree) : keepB ("summary") c = true ↔ 1 < c.num_visits := by
  have h : (("summary" : String) == "complete") = false := rfl
  simp [keepB, h]

theorem keepB_complete (c : PTree) : keepB ("complete") c = true ↔ True := by
  simp [keepB]

theorem stepsKeep_congr {k1 k2 : PTree → Prop} (h : ∀ c, k1 c → k2 c) :
    ∀ {u : PTree} {p : List String} {nn : PTree} {e : Nat},
      StepsKeep k1 u p nn e → StepsKeep k2 u p nn e := by
  intro u p nn e hs
  induction hs with
  | here w => exact .here w
  | step hmem hkeep hrec ih => exact .step hmem (h _ hkeep) ih

/-- Claim C2: the summary render visits (and emits one line for) exactly
the pairs (path, node) reachable within the depth bound along paths all of
whose children have more than one visit, while the complete render visits
every reachable child within the bound; and on the scenario node the
summary trace shows only up while the complete trace shows down and up. -/
theorem c2_render_modes (t : PTree) (mx : Option Nat) :
    (∀ p nn e, (∃ v, v ∈ printTrace t mx ("summary") ∧ v.path = p ∧ v.node = nn ∧ v.depth = e) ↔
      (StepsKeep (fun c => 1 < c.num_visits) (sortTree t) p nn e ∧ mxOK mx e)) ∧
    (∀ p nn e, (∃ v, v ∈ printTrace t mx ("complete") ∧ v.path = p ∧ v.node = nn ∧ v.depth = e) ↔
      (StepsKeep (fun _ => True) (sortTree t) p nn e ∧ mxOK mx e)) ∧
    ((printTrace scenarioTree none ("summary")).map Visit.path = [[], [("up" : String)]] ∧
     (printTrace scenarioTree none ("complete")).map Visit.path =
       [[], [("down" : String)], ["up"]]) := by
  refine ⟨?_, ?_, by decide⟩
  · intro p nn e
    constructor
    · intro ⟨v, hv, hp, hn, hd⟩
      obtain ⟨rel, e', hpath, hdepth, hmx, hst⟩ :=
        ptHelper_sound (sortTree t) none [none] 0 mx ("summary") [] v hv
      have hrel : rel = p := by
        rw [hp] at hpath
        simpa using hpath.symm
      have he : e' = e := by omega
      rw [hrel, he, hn] at hst
      rw [hd] at hmx
      exact ⟨stepsKeep_congr (fun c hc => (keepB_summary c).mp hc) hst, hmx⟩
    · intro ⟨hst, hmx⟩
      obtain ⟨v, hv, hpath, hnode, hdepth⟩ := ptHelper_complete keepB_summary hst
        0 mx (by simpa using hmx) none [none] []
      exact ⟨v, hv, by simpa using hpath, hnode, by simpa using hdepth⟩
  · intro p nn e
    constructor
    · intro ⟨v, hv, hp, hn, hd⟩
      obtain ⟨rel, e', hpath, hdepth, hmx, hst⟩ :=
        ptHelper_sound (sortTree t) none [none] 0 mx ("complete") [] v hv
      have hrel : rel = p := by
        rw [hp] at hpath
        simpa using hpath.symm
      have he : e' = e := by omega
      rw [hrel, he, hn] at hst
      rw [hd] at hmx
      exact ⟨stepsKeep_congr (fun c _ => trivial) hst, hmx⟩
    · intro ⟨hst, hmx⟩
      obtain ⟨v, hv, hpath, hnode, hdepth⟩ := ptHelper_complete keepB_complete hst
        0 mx (by simpa using hmx) none [none] []
      exact ⟨v, hv, by simpa using hpath, hnode, by simpa using hdepth⟩

/-- Witness for C2: the scenario conjunction evaluated concretely, by
applying the theorem at the scenario tree. -/
theorem c2_render_modes_witness :
    (printTrace scenarioTree none ("summary")).map Visit.path = [[], [("up" : String)]] ∧
    (printTrace scenarioTree none ("complete")).map Visit.path =
      [[], [("down" : String)], ["up"]] :=
  (c2_render_modes scenarioTree none).2.2

mutual
theorem ptHelper_pos (u : PTree) (pe : Option String) (bps : List (Option BPos)) (d : Nat)
    (mx : Option Nat) (mode : String) (pacc : List String) (v : Visit)
    (hv : v ∈ ptHelper u pe bps d mx mode pacc) :
    ∃ rel ps, v.path = pacc ++ rel ∧ v.positions = bps ++ ps.map some ∧ StepsPos u rel ps := by
  cases u with
  | node k nv val cs =>
    cases hg : mxExceeded mx d with
    | true =>
      simp only [ptHelper, hg, if_true] at hv
      simp at hv
    | false =>
      simp only [ptHelper, hg, Bool.false_eq_true, if_false] at hv
      rcases List.mem_cons.mp hv with hv | hv
      · rw [hv]
        exact ⟨[], [], by simp, by simp, .here _⟩
      · obtain ⟨l, c, j, rel, ps, hj, hget, hpath, hpos, hst⟩ :=
          ptKids_pos cs 0 cs.toList.length d mx mode bps pacc (PTree.node k nv val cs)
            rfl rfl v hv
        exact ⟨l :: rel, posOf j (PTree.node k nv val cs).children.toList.length :: ps,
          hpath, hpos, StepsPos.step hj hget hst⟩
theorem ptKids_pos (cs : Children) (i n d : Nat) (mx : Option Nat) (mode : String)
    (bps : List (Option BPos)) (pacc : List String) (u : PTree)
    (hdrop : u.children.toList.drop i = cs.toList) (hn : n = u.children.toList.length)
    (v : Visit) (hv : v ∈ ptKids cs i n d mx mode bps pacc) :
    ∃ l c j rel ps, ∃ hj : j < u.children.toList.length,
      u.children.toList.get ⟨j, hj⟩ = (l, c) ∧ v.path = pacc ++ l :: rel ∧
      v.positions = bps ++ (posOf j u.children.toList.length :: ps).map some ∧
      StepsPos c rel ps := by
  cases cs with
  | nil => simp [ptKids] at hv
  | cons l0 c0 rest =>
    have hne : u.children.toList.drop i ≠ [] := by
      rw [hdrop]
      simp [Children.toList]
    have hj : i < u.children.toList.length := by
      by_contra hcon
      push_neg at hcon
      rw [List.drop_eq_nil_of_le hcon] at hne
      exact hne rfl
    have hdec := List.drop_eq_getElem_cons hj
    rw [hdrop] at hdec
    simp only [Children.toList] at hdec
    injection hdec with hhead htail
    simp only [ptKids] at hv
    rcases List.mem_append.mp hv with hv | hv
    · cases hk : keepB mode c0 with
      | false =>
        rw [hk] at hv
        simp at hv
      | true =>
        rw [hk, if_pos rfl] at hv
        obtain ⟨rel, ps, hpath, hpos, hst⟩ := ptHelper_pos c0 (some l0)
          (bps ++ [some (posOf i n)]) (if c0.kind == Kind.qnode then d else d + 1)
          mx mode (pacc ++ [l0]) v hv
        refine ⟨l0, c0, i, rel, ps, hj, ?_, ?_, ?_, hst⟩
        · rw [List.get_eq_getElem]
          exact hhead.symm
        · rw [hpath, List.append_assoc]
          rfl
        · rw [hpos, List.append_assoc, hn]
          rfl
    · have hdrop2 : u.children.toList.drop (i + 1) = rest.toList := htail.symm ▸ rfl
      obtain ⟨l, c, j, rel, ps, hj2, hrest⟩ :=
        ptKids_pos rest (i + 1) n d mx mode bps pacc u hdrop2 hn v hv
      exact ⟨l, c, j, rel, ps, hj2, hrest⟩
end

theorem midGlyph_len (b : BPos) : (midGlyph (some b)).length = 5 := by
  cases b <;> decide

theorem edgeGlyph_len (b : BPos) : (edgeGlyph (some b)).length = 5 := by
  cases b <;> decide

theorem branchesOf_some_len (q : BPos) (qs : List BPos) :
    (branchesOf (some q :: qs.map some)).length = 5 * (qs.length + 1) := by
  induction qs generalizing q with
  | nil => simp [branchesOf, edgeGlyph_len]
  | cons q2 qs ih =>
    simp only [List.map_cons, branchesOf, String.length_append, midGlyph_len, ih q2,
      List.length_cons]
    ring

theorem branchesOf_none_len (ps : List BPos) :
    (branchesOf ((none : Option BPos) :: ps.map some)).length = 5 * ps.length := by
  cases ps with
  | nil => rfl
  | cons q qs =>
    simp only [List.map_cons, branchesOf, String.length_append, branchesOf_some_len q qs,
      midGlyph, List.length_cons]
    simp

theorem stepsPos_len {u : PTree} {p : List String} {ps : List BPos} (h : StepsPos u p ps) :
    p.length = ps.length := by
  induction h with
  | here w => rfl
  | step hj hget hrec ih => simp [ih]

/-- Claim C7: every line emitted by the renderer carries one five-char
glyph group per ancestor between the node and the render root: the branch
positions threaded by the traversal are exactly the sibling positions
(first, middle or last, by index among the sorted siblings) of the
ancestors along the path of edge labels, the emitted line is those glyphs
(a vertical-bar group for a first-or-middle ancestor, a blank group for a
last ancestor, a tee or corner group for the immediate edge) followed by
the node description, and the glyph prefix length is five characters per
path step. -/
theorem c7_branch_glyphs (t : PTree) (mx : Option Nat) (mode : String) (v : Visit)
    (hv : v ∈ printTrace t mx mode) :
    ∃ ps : List BPos, StepsPos (sortTree t) v.path ps ∧
      v.positions = (none : Option BPos) :: ps.map some ∧
      lineOf v = branchesOf ((none : Option BPos) :: ps.map some) ++ nodeTail v ∧
      (branchesOf v.positions).length = 5 * v.path.length := by
  obtain ⟨rel, ps, hpath, hpos, hst⟩ :=
    ptHelper_pos (sortTree t) none [none] 0 mx mode [] v hv
  have hpath2 : v.path = rel := by simpa using hpath
  have hpos2 : v.positions = (none : Option BPos) :: ps.map some := by simpa using hpos
  refine ⟨ps, ?_, hpos2, ?_, ?_⟩
  · rwa [hpath2]
  · rw [lineOf, hpos2]
  · rw [hpos2, branchesOf_none_len, hpath2, stepsPos_len hst]

/-- Witness for C7: the root visit of the complete render of the scenario
tree (no ancestors, so an empty glyph prefix). -/
theorem c7_branch_glyphs_witness :
    ∃ ps : List BPos, StepsPos (sortTree scenarioTree)
        (Visit.mk (sortTree scenarioTree) none [none] 0 ([] : List String)).path ps ∧
      (Visit.mk (sortTree scenarioTree) none [none] 0 ([] : List String)).positions =
        (none : Option BPos) :: ps.map some ∧
      lineOf (Visit.mk (sortTree scenarioTree) none [none] 0 ([] : List String)) =
        branchesOf ((none : Option BPos) :: ps.map some) ++
          nodeTail (Visit.mk (sortTree scenarioTree) none [none] 0 ([] : List String)) ∧
      (branchesOf (Visit.mk (sortTree scenarioTree) none [none] 0
          ([] : List String)).positions).length =
        5 * (Visit.mk (sortTree scenarioTree) none [none] 0 ([] : List String)).path.length :=
  c7_branch_glyphs scenarioTree none ("complete") _ (by decide)
